import Mathlib

/-!
Verification of the sort entry points of `src/libcxx_stable/libcxx_sort.cpp`.

The C++ file exposes eight `extern "C"` entry points over two element types
(`int32_t`, `uint64_t`): a stable and an unstable sort, each in a natural-order
form and in a comparator-driven `_by` form taking a raw function pointer
`bool cmp_fn(const T&, const T&, uint8_t* ctx)` plus an opaque context pointer.
The entry points delegate to `std::stable_sort` / `std::sort`, adapting the raw
predicate with `make_compare_fn`.

The embedding models a buffer `T* data, size_t len` as a `List` of its `len`
elements (`Int` for `int32_t`, `Nat` for `uint64_t`; sorting performs no
arithmetic on the elements, only comparisons, so the fixed width plays no
role), the opaque `uint8_t*` context as a value of an arbitrary type `γ`, and
the library routines `std::stable_sort` / `std::sort` — which are not part of
this repository — from the specification's description of them.
-/

namespace LibcxxSort

/-- Natural strict order on `Int`: C++ `operator<` on `int32_t`. -/
def intLT (a b : Int) : Bool := decide (a < b)

/-- Natural strict order on `Nat`: C++ `operator<` on `uint64_t`. -/
def natLT (a b : Nat) : Bool := decide (a < b)

/-- The non-strict test `fun a b => ¬ lt b a` derived from a strict order,
the form in which a C++ comparison predicate drives a merge step. -/
def swoLE (lt : α → α → Bool) (a b : α) : Bool := !lt b a

/-- `make_compare_fn` from `libcxx_sort.cpp` (lines 5–11): binds the raw
comparison function pointer and the opaque context into a single binary
predicate; the lambda captures `cmp_fn` and `ctx` by value and forwards both
arguments and the context on every invocation. -/
def make_compare_fn (cmp_fn : α → α → γ → Bool) (ctx : γ) : α → α → Bool :=
  fun a b => cmp_fn a b ctx

/-- Modelled from the spec: `std::stable_sort` (library code, not part of this
repository) — a stable sort placing the sequence into non-decreasing order
under the strict order `lt` (adjacent results satisfy `¬ lt next cur`),
preserving the relative order of incomparable elements, within O(N log N)
comparisons. Realised by the stable merge sort `List.mergeSort` driven by the
non-strict test `swoLE lt`. -/
def std_stable_sort (lt : α → α → Bool) (data : List α) : List α :=
  List.mergeSort data (swoLE lt)

/-- Modelled from the spec: `std::sort` (library code, not part of this
repository) — sorts into non-decreasing order under `lt` with no stability
guarantee, within O(N log N) comparisons; the spec admits any algorithm
meeting that bound, and the model realises it with the same merge sort. -/
def std_sort (lt : α → α → Bool) (data : List α) : List α :=
  List.mergeSort data (swoLE lt)

/-- `sort_stable_i32` (lines 16–18): `std::stable_sort(data, data + len)`. -/
def sort_stable_i32 (data : List Int) : List Int :=
  std_stable_sort intLT data

/-- `sort_stable_i32_by` (lines 20–27):
`std::stable_sort(data, data + len, make_compare_fn(cmp_fn, ctx))`. -/
def sort_stable_i32_by (data : List Int) (cmp_fn : Int → Int → γ → Bool)
    (ctx : γ) : List Int :=
  std_stable_sort (make_compare_fn cmp_fn ctx) data

/-- `sort_unstable_i32` (lines 29–31): `std::sort(data, data + len)`. -/
def sort_unstable_i32 (data : List Int) : List Int :=
  std_sort intLT data

/-- `sort_unstable_i32_by` (lines 33–40):
`std::sort(data, data + len, make_compare_fn(cmp_fn, ctx))`. -/
def sort_unstable_i32_by (data : List Int) (cmp_fn : Int → Int → γ → Bool)
    (ctx : γ) : List Int :=
  std_sort (make_compare_fn cmp_fn ctx) data

/-- `sort_stable_u64` (lines 44–46): `std::stable_sort(data, data + len)`. -/
def sort_stable_u64 (data : List Nat) : List Nat :=
  std_stable_sort natLT data

/-- `sort_stable_u64_by` (lines 48–55):
`std::stable_sort(data, data + len, make_compare_fn(cmp_fn, ctx))`. -/
def sort_stable_u64_by (data : List Nat) (cmp_fn : Nat → Nat → γ → Bool)
    (ctx : γ) : List Nat :=
  std_stable_sort (make_compare_fn cmp_fn ctx) data

/-- `sort_unstable_u64` (lines 57–59): `std::sort(data, data + len)`. -/
def sort_unstable_u64 (data : List Nat) : List Nat :=
  std_sort natLT data

/-- `sort_unstable_u64_by` (lines 61–68):
`std::sort(data, data + len, make_compare_fn(cmp_fn, ctx))`. -/
def sort_unstable_u64_by (data : List Nat) (cmp_fn : Nat → Nat → γ → Bool)
    (ctx : γ) : List Nat :=
  std_sort (make_compare_fn cmp_fn ctx) data

/-- Two elements are incomparable under the strict order `lt`: neither
strictly precedes the other (the spec's "compare equal under the ordering"). -/
def Incomp (lt : α → α → Bool) (a b : α) : Prop :=
  lt a b = false ∧ lt b a = false

/-- The comparator validity contract from the spec's glossary: a strict weak
ordering is irreflexive, asymmetric, transitive, and has transitive
incomparability. -/
def StrictWeakOrder (lt : α → α → Bool) : Prop :=
  (∀ a, lt a a = false) ∧
  (∀ a b, lt a b = true → lt b a = false) ∧
  (∀ a b c, lt a b = true → lt b c = true → lt a c = true) ∧
  (∀ a b c, Incomp lt a b → Incomp lt b c → Incomp lt a c)

/-- A list is sorted in the sense of the spec's order invariant: at every pair
of adjacent positions `i`, `i+1`, the later element does not strictly precede
the earlier one. -/
def SortedAdj (lt : α → α → Bool) (l : List α) : Prop :=
  ∀ i, (h : i + 1 < l.length) →
    lt (l.get ⟨i + 1, h⟩) (l.get ⟨i, by omega⟩) = false

/-- Negative transitivity of a strict weak order, stated as transitivity of
the derived non-strict test `swoLE lt`. -/
theorem swo_le_trans {lt : α → α → Bool} (h : StrictWeakOrder lt) :
    ∀ a b c, swoLE lt a b → swoLE lt b c → swoLE lt a c := by
  obtain ⟨hirr, hasym, htrans, hincomp⟩ := h
  intro a b c hab hbc
  simp only [swoLE, Bool.not_eq_true'] at hab hbc ⊢
  by_contra hca
  simp only [Bool.not_eq_false] at hca
  cases hab' : lt a b with
  | true => exact absurd (htrans c a b hca hab') (by simp [hbc])
  | false =>
    cases hbc' : lt b c with
    | true => exact absurd (htrans b c a hbc' hca) (by simp [hab])
    | false => exact absurd (hincomp a b c ⟨hab', hab⟩ ⟨hbc', hbc⟩).2 (by simp [hca])

/-- Totality of the non-strict test derived from a strict weak order. -/
theorem swo_le_total {lt : α → α → Bool} (h : StrictWeakOrder lt) :
    ∀ a b, swoLE lt a b || swoLE lt b a := by
  obtain ⟨hirr, hasym, htrans, hincomp⟩ := h
  intro a b
  simp only [swoLE, Bool.or_eq_true, Bool.not_eq_true']
  rcases hba : lt b a with _ | _
  · exact Or.inl rfl
  · exact Or.inr (hasym b a hba)

/-- The natural order on `Int` is a strict weak order. -/
theorem intLT_swo : StrictWeakOrder intLT := by
  simp only [StrictWeakOrder, Incomp, intLT, decide_eq_true_eq,
    decide_eq_false_iff_not]
  refine ⟨?_, ?_, ?_, ?_⟩ <;> intros <;> omega

/-- The natural order on `Nat` is a strict weak order. -/
theorem natLT_swo : StrictWeakOrder natLT := by
  simp only [StrictWeakOrder, Incomp, natLT, decide_eq_true_eq,
    decide_eq_false_iff_not]
  refine ⟨?_, ?_, ?_, ?_⟩ <;> intros <;> omega

/-- Two positions `i < j` of a list yield the two-element sublist
`[l[i], l[j]]`. -/
theorem pair_sublist_of_getElem {l : List α} {i j : Nat} {a b : α}
    (hij : i < j) (ha : l[i]? = some a) (hb : l[j]? = some b) :
    List.Sublist [a, b] l := by
  induction l generalizing i j with
  | nil => simp at ha
  | cons x xs ih =>
    cases i with
    | zero =>
      cases j with
      | zero => omega
      | succ j =>
        simp only [List.getElem?_cons_zero, Option.some.injEq] at ha
        simp only [List.getElem?_cons_succ] at hb
        subst ha
        exact (List.singleton_sublist.mpr (List.getElem?_mem hb)).cons₂ x
    | succ i =>
      cases j with
      | zero => omega
      | succ j =>
        simp only [List.getElem?_cons_succ] at ha hb
        exact (ih (by omega) ha hb).cons x

/-- A two-element sublist occupies two ordered positions of the list. -/
theorem getElem_of_pair_sublist {l : List α} {a b : α}
    (h : List.Sublist [a, b] l) :
    ∃ (i j : Nat), i < j ∧ l[i]? = some a ∧ l[j]? = some b := by
  induction l with
  | nil => simp at h
  | cons x xs ih =>
    cases h with
    | cons _ h =>
      obtain ⟨i, j, hij, ha, hb⟩ := ih h
      exact ⟨i + 1, j + 1, by omega, by simpa using ha, by simpa using hb⟩
    | cons₂ _ h =>
      obtain ⟨j, hb⟩ := List.getElem?_of_mem (List.singleton_sublist.mp h)
      exact ⟨0, j + 1, by omega, by simp, by simpa using hb⟩

/-- A list that is `Pairwise` under the derived non-strict test is sorted in
the adjacent sense. -/
theorem sortedAdj_of_pairwise {lt : α → α → Bool} {l : List α}
    (hp : l.Pairwise (fun a b => swoLE lt a b = true)) : SortedAdj lt l := by
  intro i hi
  have h1 : l[i]? = some (l.get ⟨i, by omega⟩) := by
    rw [List.get_eq_getElem]
    exact List.getElem?_eq_getElem (by omega)
  have h2 : l[i + 1]? = some (l.get ⟨i + 1, hi⟩) := by
    rw [List.get_eq_getElem]
    exact List.getElem?_eq_getElem hi
  have hsub := pair_sublist_of_getElem (by omega : i < i + 1) h1 h2
  have := List.pairwise_iff_forall_sublist.mp hp hsub
  simpa [swoLE, Bool.not_eq_true'] using this

/-- Conversely, under a strict weak order, adjacent sortedness propagates to
all pairs of positions. -/
theorem pairwise_of_sortedAdj {lt : α → α → Bool} (h : StrictWeakOrder lt)
    {l : List α} (hs : SortedAdj lt l) :
    l.Pairwise (fun a b => swoLE lt a b = true) := by
  have hchain : List.Chain' (fun a b => swoLE lt a b = true) l := by
    rw [List.chain'_iff_get]
    intro i hi
    have := hs i (by omega)
    simpa [swoLE, Bool.not_eq_true'] using this
  exact (@List.chain'_iff_pairwise _ _
    ⟨fun a b c hab hbc => swo_le_trans h a b c hab hbc⟩ _).mp hchain

/-- The model of `std::stable_sort` sorts under any strict weak order. -/
theorem std_stable_sort_sortedAdj {lt : α → α → Bool} (h : StrictWeakOrder lt)
    (l : List α) : SortedAdj lt (std_stable_sort lt l) :=
  sortedAdj_of_pairwise (List.sorted_mergeSort
    (fun a b c => swo_le_trans h a b c) (fun a b => swo_le_total h a b) l)

/-- The model of `std::sort` sorts under any strict weak order. -/
theorem std_sort_sortedAdj {lt : α → α → Bool} (h : StrictWeakOrder lt)
    (l : List α) : SortedAdj lt (std_sort lt l) :=
  sortedAdj_of_pairwise (List.sorted_mergeSort
    (fun a b c => swo_le_trans h a b c) (fun a b => swo_le_total h a b) l)

/-- The model of `std::stable_sort` permutes its input, for any comparator. -/
theorem std_stable_sort_perm (lt : α → α → Bool) (l : List α) :
    (std_stable_sort lt l).Perm l :=
  List.mergeSort_perm l (swoLE lt)

/-- The model of `std::sort` permutes its input, for any comparator. -/
theorem std_sort_perm (lt : α → α → Bool) (l : List α) :
    (std_sort lt l).Perm l :=
  List.mergeSort_perm l (swoLE lt)

/-- The spec's stability invariant relating an input and an output list:
whenever the element at input position `i` and the element at the later input
position `j` compare equal under the ordering, the first occupies an earlier
output position than the second. -/
def PreservesEqualOrder (lt : α → α → Bool) (inp out : List α) : Prop :=
  ∀ (i j : Nat) (a b : α), i < j → inp[i]? = some a → inp[j]? = some b →
    Incomp lt a b →
    ∃ (k m : Nat), k < m ∧ out[k]? = some a ∧ out[m]? = some b

/-- The model of `std::stable_sort` satisfies the stability invariant under
any strict weak order. -/
theorem std_stable_sort_stable {lt : α → α → Bool} (h : StrictWeakOrder lt)
    (l : List α) : PreservesEqualOrder lt l (std_stable_sort lt l) := by
  intro i j a b hij ha hb hinc
  have hsub : List.Sublist [a, b] l := pair_sublist_of_getElem hij ha hb
  have hpair : List.Pairwise (fun a b => swoLE lt a b = true) [a, b] := by
    rw [List.pairwise_pair]
    simp [swoLE, hinc.2]
  exact getElem_of_pair_sublist
    (List.sublist_mergeSort (fun a b c => swo_le_trans h a b c)
      (fun a b => swo_le_total h a b) hpair hsub)

/-- Sorting an already-sorted list with the model of `std::stable_sort` is
the identity. -/
theorem std_stable_sort_of_sortedAdj {lt : α → α → Bool}
    (h : StrictWeakOrder lt) {l : List α} (hs : SortedAdj lt l) :
    std_stable_sort lt l = l :=
  List.mergeSort_of_sorted (pairwise_of_sortedAdj h hs)

/-- Sorting an already-sorted list with the model of `std::sort` is the
identity. -/
theorem std_sort_of_sortedAdj {lt : α → α → Bool}
    (h : StrictWeakOrder lt) {l : List α} (hs : SortedAdj lt l) :
    std_sort lt l = l :=
  List.mergeSort_of_sorted (pairwise_of_sortedAdj h hs)

/-- The natural-order `Int` sorts produce a `≤`-pairwise result. -/
theorem mergeSort_int_le_pairwise (l : List Int) :
    List.Pairwise (fun a b : Int => a ≤ b) (List.mergeSort l (swoLE intLT)) :=
  (List.sorted_mergeSort (fun a b c => swo_le_trans intLT_swo a b c)
    (fun a b => swo_le_total intLT_swo a b) l).imp (fun h => by
      simp only [swoLE, intLT, Bool.not_eq_true', decide_eq_false_iff_not] at h
      omega)

/-- The natural-order `Nat` sorts produce a `≤`-pairwise result. -/
theorem mergeSort_nat_le_pairwise (l : List Nat) :
    List.Pairwise (fun a b : Nat => a ≤ b) (List.mergeSort l (swoLE natLT)) :=
  (List.sorted_mergeSort (fun a b c => swo_le_trans natLT_swo a b c)
    (fun a b => swo_le_total natLT_swo a b) l).imp (fun h => by
      simp only [swoLE, natLT, Bool.not_eq_true', decide_eq_false_iff_not] at h
      omega)

/-- Modelled from the spec: the merge step of the library sort instrumented
with a comparison counter — it returns the merged list together with the
number of predicate invocations performed, one per element emitted by a
comparison. -/
def mergeC (le : α → α → Bool) : List α → List α → List α × Nat
  | [], ys => (ys, 0)
  | xs, [] => (xs, 0)
  | x :: xs, y :: ys =>
    if le x y then
      let r := mergeC le xs (y :: ys)
      (x :: r.1, r.2 + 1)
    else
      let r := mergeC le (x :: xs) ys
      (y :: r.1, r.2 + 1)

/-- Modelled from the spec: the library merge sort instrumented with a
comparison counter, splitting exactly as `List.mergeSort` does. -/
def mergeSortC (le : α → α → Bool) : List α → List α × Nat
  | [] => ([], 0)
  | [a] => ([a], 0)
  | a :: b :: xs =>
    let r₁ := mergeSortC le ((a :: b :: xs).take ((xs.length + 3) / 2))
    let r₂ := mergeSortC le ((a :: b :: xs).drop ((xs.length + 3) / 2))
    let m := mergeC le r₁.1 r₂.1
    (m.1, r₁.2 + r₂.2 + m.2)
termination_by l => l.length
decreasing_by
  all_goals (simp [List.length_take, List.length_drop]; omega)

/-- The instrumented merge computes the same list as `List.merge`. -/
theorem mergeC_fst (le : α → α → Bool) :
    ∀ xs ys : List α, (mergeC le xs ys).1 = List.merge xs ys le
  | [], ys => by simp [mergeC]
  | x :: xs, [] => by simp [mergeC]
  | x :: xs, y :: ys => by
    rcases hxy : le x y with _ | _
    · simp [mergeC, List.merge, hxy, mergeC_fst le (x :: xs) ys]
    · simp [mergeC, List.merge, hxy, mergeC_fst le xs (y :: ys)]
termination_by xs ys => xs.length + ys.length

/-- The instrumented merge performs at most one comparison per element. -/
theorem mergeC_count (le : α → α → Bool) :
    ∀ xs ys : List α, (mergeC le xs ys).2 ≤ xs.length + ys.length
  | [], ys => by simp [mergeC]
  | x :: xs, [] => by simp [mergeC]
  | x :: xs, y :: ys => by
    rcases hxy : le x y with _ | _
    · have h := mergeC_count le (x :: xs) ys
      simp only [List.length_cons] at h
      simp [mergeC, hxy]
      omega
    · have h := mergeC_count le xs (y :: ys)
      simp only [List.length_cons] at h
      simp [mergeC, hxy]
      omega
termination_by xs ys => xs.length + ys.length

/-- The instrumented merge sort computes exactly `List.mergeSort`. -/
theorem mergeSortC_fst (le : α → α → Bool) :
    ∀ l : List α, (mergeSortC le l).1 = List.mergeSort l le
  | [] => by simp [mergeSortC]
  | [a] => by simp [mergeSortC]
  | a :: b :: xs => by
    have h₁ := mergeSortC_fst le ((a :: b :: xs).take ((xs.length + 3) / 2))
    have h₂ := mergeSortC_fst le ((a :: b :: xs).drop ((xs.length + 3) / 2))
    rw [List.mergeSort]
    simp only [mergeSortC, mergeC_fst, h₁, h₂, List.splitInTwo_fst,
      List.splitInTwo_snd]
    have e : ((a :: b :: xs).length + 1) / 2 = (xs.length + 3) / 2 := by
      simp only [List.length_cons]
    rw [e]
termination_by l => l.length
decreasing_by
  all_goals (simp [List.length_take, List.length_drop]; omega)

/-- The instrumented merge sort preserves length. -/
theorem mergeSortC_length (le : α → α → Bool) (l : List α) :
    (mergeSortC le l).1.length = l.length := by
  rw [mergeSortC_fst]
  exact List.length_mergeSort l

/-- The instrumented merge sort performs at most `n * ⌈log₂ n⌉` comparisons
on a list of length `n`, for any comparator whatsoever — the O(N log N)
worst-case comparison bound, with no strict-weak-order assumption. -/
theorem mergeSortC_count (le : α → α → Bool) :
    ∀ l : List α, (mergeSortC le l).2 ≤ l.length * Nat.clog 2 l.length
  | [] => by simp [mergeSortC]
  | [a] => by simp [mergeSortC]
  | a :: b :: xs => by
    have ih₁ := mergeSortC_count le ((a :: b :: xs).take ((xs.length + 3) / 2))
    have ih₂ := mergeSortC_count le ((a :: b :: xs).drop ((xs.length + 3) / 2))
    have hm := mergeC_count le
      (mergeSortC le ((a :: b :: xs).take ((xs.length + 3) / 2))).1
      (mergeSortC le ((a :: b :: xs).drop ((xs.length + 3) / 2))).1
    have hl₁ := mergeSortC_length le ((a :: b :: xs).take ((xs.length + 3) / 2))
    have hl₂ := mergeSortC_length le ((a :: b :: xs).drop ((xs.length + 3) / 2))
    have ht : ((a :: b :: xs).take ((xs.length + 3) / 2)).length =
        (xs.length + 3) / 2 := by
      simp only [List.length_take, List.length_cons]
      omega
    have hd : ((a :: b :: xs).drop ((xs.length + 3) / 2)).length =
        (xs.length + 2) / 2 := by
      simp only [List.length_drop, List.length_cons]
      omega
    rw [ht] at ih₁ hl₁
    rw [hd] at ih₂ hl₂
    rw [hl₁, hl₂] at hm
    have hclog : Nat.clog 2 (xs.length + 2) =
        Nat.clog 2 ((xs.length + 3) / 2) + 1 := by
      rw [Nat.clog_of_two_le (by omega) (by omega)]
      have e2 : xs.length + 2 + 2 - 1 = xs.length + 3 := by omega
      rw [e2]
    have hmono : Nat.clog 2 ((xs.length + 2) / 2) ≤
        Nat.clog 2 ((xs.length + 3) / 2) :=
      Nat.clog_mono_right 2 (by omega)
    have step₂ : (mergeSortC le ((a :: b :: xs).drop ((xs.length + 3) / 2))).2 ≤
        (xs.length + 2) / 2 * Nat.clog 2 ((xs.length + 3) / 2) :=
      ih₂.trans (Nat.mul_le_mul_left _ hmono)
    have hL : (a :: b :: xs).length = xs.length + 2 := by
      simp only [List.length_cons]
    have hsum : (xs.length + 3) / 2 + (xs.length + 2) / 2 = xs.length + 2 := by
      omega
    rw [mergeSortC]
    dsimp only
    rw [hL, hclog]
    refine le_trans (Nat.add_le_add (Nat.add_le_add ih₁ step₂) hm) ?_
    rw [← Nat.add_mul, hsum, Nat.mul_succ]
termination_by l => l.length
decreasing_by
  all_goals (simp [List.length_take, List.length_drop]; omega)

/-- A comparator ordering `Int` values by their residue mod 4 — a strict
weak order whose incomparability classes contain distinct values. -/
theorem mod4_swo :
    StrictWeakOrder (fun a b : Int => decide (a % 4 < b % 4)) := by
  simp only [StrictWeakOrder, Incomp, decide_eq_true_eq,
    decide_eq_false_iff_not]
  refine ⟨?_, ?_, ?_, ?_⟩ <;> intros <;> omega

/-- C1: for every input and each of the eight entry points, after the call
returns no adjacent output pair is out of order: the element at position
`i+1` does not strictly precede the element at position `i` under the
requested ordering — natural order for the plain variants, the supplied
predicate (assumed a strict weak ordering) with its context for the `_by`
variants. -/
theorem sort_entry_points_order_invariant (γ : Type)
    (ci : Int → Int → γ → Bool) (cu : Nat → Nat → γ → Bool) (ctx : γ)
    (li : List Int) (lu : List Nat)
    (hci : StrictWeakOrder (make_compare_fn ci ctx))
    (hcu : StrictWeakOrder (make_compare_fn cu ctx)) :
    SortedAdj intLT (sort_stable_i32 li) ∧
    SortedAdj (make_compare_fn ci ctx) (sort_stable_i32_by li ci ctx) ∧
    SortedAdj intLT (sort_unstable_i32 li) ∧
    SortedAdj (make_compare_fn ci ctx) (sort_unstable_i32_by li ci ctx) ∧
    SortedAdj natLT (sort_stable_u64 lu) ∧
    SortedAdj (make_compare_fn cu ctx) (sort_stable_u64_by lu cu ctx) ∧
    SortedAdj natLT (sort_unstable_u64 lu) ∧
    SortedAdj (make_compare_fn cu ctx) (sort_unstable_u64_by lu cu ctx) :=
  ⟨std_stable_sort_sortedAdj intLT_swo li, std_stable_sort_sortedAdj hci li,
   std_sort_sortedAdj intLT_swo li, std_sort_sortedAdj hci li,
   std_stable_sort_sortedAdj natLT_swo lu, std_stable_sort_sortedAdj hcu lu,
   std_sort_sortedAdj natLT_swo lu, std_sort_sortedAdj hcu lu⟩

/-- Witness for C1: the natural comparators lifted to the `_by` interface are
strict weak orders, and the conclusion holds at concrete inputs. -/
theorem sort_entry_points_order_invariant_witness :
    StrictWeakOrder (make_compare_fn (fun a b (_ : Unit) => intLT a b) ()) ∧
    StrictWeakOrder (make_compare_fn (fun a b (_ : Unit) => natLT a b) ()) ∧
    (SortedAdj intLT (sort_stable_i32 [5, 3, 3, 1]) ∧
     SortedAdj (make_compare_fn (fun a b (_ : Unit) => intLT a b) ())
       (sort_stable_i32_by [5, 3, 3, 1] (fun a b _ => intLT a b) ()) ∧
     SortedAdj intLT (sort_unstable_i32 [5, 3, 3, 1]) ∧
     SortedAdj (make_compare_fn (fun a b (_ : Unit) => intLT a b) ())
       (sort_unstable_i32_by [5, 3, 3, 1] (fun a b _ => intLT a b) ()) ∧
     SortedAdj natLT (sort_stable_u64 [18446744073709551615, 0, 1]) ∧
     SortedAdj (make_compare_fn (fun a b (_ : Unit) => natLT a b) ())
       (sort_stable_u64_by [18446744073709551615, 0, 1]
         (fun a b _ => natLT a b) ()) ∧
     SortedAdj natLT (sort_unstable_u64 [18446744073709551615, 0, 1]) ∧
     SortedAdj (make_compare_fn (fun a b (_ : Unit) => natLT a b) ())
       (sort_unstable_u64_by [18446744073709551615, 0, 1]
         (fun a b _ => natLT a b) ())) :=
  ⟨intLT_swo, natLT_swo,
   sort_entry_points_order_invariant Unit (fun a b _ => intLT a b)
     (fun a b _ => natLT a b) () [5, 3, 3, 1] [18446744073709551615, 0, 1]
     intLT_swo natLT_swo⟩

/-- C2: each of the eight entry points returns a permutation of its input —
the multiset of element values is exactly unchanged. This holds with no
assumption at all on the `_by` predicate, which subsumes the
strict-weak-order case stated in the spec. -/
theorem sort_entry_points_permutation (γ : Type)
    (ci : Int → Int → γ → Bool) (cu : Nat → Nat → γ → Bool) (ctx : γ)
    (li : List Int) (lu : List Nat) :
    (sort_stable_i32 li).Perm li ∧
    (sort_stable_i32_by li ci ctx).Perm li ∧
    (sort_unstable_i32 li).Perm li ∧
    (sort_unstable_i32_by li ci ctx).Perm li ∧
    (sort_stable_u64 lu).Perm lu ∧
    (sort_stable_u64_by lu cu ctx).Perm lu ∧
    (sort_unstable_u64 lu).Perm lu ∧
    (sort_unstable_u64_by lu cu ctx).Perm lu :=
  ⟨std_stable_sort_perm _ li, std_stable_sort_perm _ li,
   std_sort_perm _ li, std_sort_perm _ li,
   std_stable_sort_perm _ lu, std_stable_sort_perm _ lu,
   std_sort_perm _ lu, std_sort_perm _ lu⟩

/-- C5: the adapter produced by `make_compare_fn` applied to `(a, b)` returns
exactly `cmp_fn a b ctx` — the caller's context is passed through unchanged as
the third argument — and each `_by` entry point drives its sorting engine with
exactly that adapted predicate, so every comparison during the sort is an
invocation of the caller's predicate with the caller's context. -/
theorem comparator_ctx_passed_verbatim (α γ : Type)
    (cmp_fn : α → α → γ → Bool) (ctx : γ) (a b : α)
    (ci : Int → Int → γ → Bool) (cu : Nat → Nat → γ → Bool)
    (li : List Int) (lu : List Nat) :
    make_compare_fn cmp_fn ctx a b = cmp_fn a b ctx ∧
    sort_stable_i32_by li ci ctx = std_stable_sort (fun x y => ci x y ctx) li ∧
    sort_unstable_i32_by li ci ctx = std_sort (fun x y => ci x y ctx) li ∧
    sort_stable_u64_by lu cu ctx = std_stable_sort (fun x y => cu x y ctx) lu ∧
    sort_unstable_u64_by lu cu ctx = std_sort (fun x y => cu x y ctx) lu :=
  ⟨rfl, rfl, rfl, rfl, rfl⟩

/-- C7: every entry point completes on inputs of length 0 and length 1 and is
the identity there, with no assumption on the `_by` predicate. -/
theorem len_zero_one_noop (γ : Type) (ci : Int → Int → γ → Bool)
    (cu : Nat → Nat → γ → Bool) (ctx : γ) (x : Int) (y : Nat) :
    sort_stable_i32 [] = [] ∧ sort_stable_i32 [x] = [x] ∧
    sort_stable_i32_by [] ci ctx = [] ∧ sort_stable_i32_by [x] ci ctx = [x] ∧
    sort_unstable_i32 [] = [] ∧ sort_unstable_i32 [x] = [x] ∧
    sort_unstable_i32_by [] ci ctx = [] ∧
    sort_unstable_i32_by [x] ci ctx = [x] ∧
    sort_stable_u64 [] = [] ∧ sort_stable_u64 [y] = [y] ∧
    sort_stable_u64_by [] cu ctx = [] ∧ sort_stable_u64_by [y] cu ctx = [y] ∧
    sort_unstable_u64 [] = [] ∧ sort_unstable_u64 [y] = [y] ∧
    sort_unstable_u64_by [] cu ctx = [] ∧
    sort_unstable_u64_by [y] cu ctx = [y] := by
  simp [sort_stable_i32, sort_stable_i32_by, sort_unstable_i32,
    sort_unstable_i32_by, sort_stable_u64, sort_stable_u64_by,
    sort_unstable_u64, sort_unstable_u64_by, std_stable_sort, std_sort]

/-- C9: natural-order stable sorting agrees with comparator-driven stable
sorting when the predicate returns `a < b` and ignores the context, for every
context value of every type. -/
theorem natural_agrees_with_by_lt (γ : Type) (ctx : γ)
    (li : List Int) (lu : List Nat) :
    sort_stable_i32 li =
      sort_stable_i32_by li (fun a b _ => decide (a < b)) ctx ∧
    sort_stable_u64 lu =
      sort_stable_u64_by lu (fun a b _ => decide (a < b)) ctx :=
  ⟨rfl, rfl⟩

/-- C10: under natural order on plain integer values the stable and unstable
variants produce identical buffers — the sorted arrangement of a multiset of
totally ordered values is unique, so a permutation that is sorted is
determined by the input. -/
theorem stable_agrees_with_unstable_natural (li : List Int) (lu : List Nat) :
    sort_stable_i32 li = sort_unstable_i32 li ∧
    sort_stable_u64 lu = sort_unstable_u64 lu :=
  ⟨List.eq_of_perm_of_sorted
      ((std_stable_sort_perm intLT li).trans (std_sort_perm intLT li).symm)
      (mergeSort_int_le_pairwise li) (mergeSort_int_le_pairwise li),
   List.eq_of_perm_of_sorted
      ((std_stable_sort_perm natLT lu).trans (std_sort_perm natLT lu).symm)
      (mergeSort_nat_le_pairwise lu) (mergeSort_nat_le_pairwise lu)⟩

/-- C3: the four stable variants preserve the relative order of input
elements that compare equal under the requested ordering: if position `i`
holds `a`, a later position `j` holds `b`, and `a`, `b` are incomparable,
then `a` occupies an earlier output position than `b`. -/
theorem stable_variants_stability (γ : Type)
    (ci : Int → Int → γ → Bool) (cu : Nat → Nat → γ → Bool) (ctx : γ)
    (li : List Int) (lu : List Nat)
    (hci : StrictWeakOrder (make_compare_fn ci ctx))
    (hcu : StrictWeakOrder (make_compare_fn cu ctx)) :
    PreservesEqualOrder intLT li (sort_stable_i32 li) ∧
    PreservesEqualOrder (make_compare_fn ci ctx) li
      (sort_stable_i32_by li ci ctx) ∧
    PreservesEqualOrder natLT lu (sort_stable_u64 lu) ∧
    PreservesEqualOrder (make_compare_fn cu ctx) lu
      (sort_stable_u64_by lu cu ctx) :=
  ⟨std_stable_sort_stable intLT_swo li, std_stable_sort_stable hci li,
   std_stable_sort_stable natLT_swo lu, std_stable_sort_stable hcu lu⟩

/-- Witness for C3: under the mod-4 key comparator the input `[7, 3]` holds
distinct elements that compare equal at positions `0 < 1`, and the stable
sort keeps `7` before `3`. -/
theorem stable_variants_stability_witness :
    StrictWeakOrder
      (make_compare_fn (fun (a b : Int) (_ : Unit) => decide (a % 4 < b % 4)) ()) ∧
    StrictWeakOrder (make_compare_fn (fun a b (_ : Unit) => natLT a b) ()) ∧
    (∃ (k m : Nat), k < m ∧
      (sort_stable_i32_by [7, 3]
        (fun a b _ => decide (a % 4 < b % 4)) ())[k]? = some 7 ∧
      (sort_stable_i32_by [7, 3]
        (fun a b _ => decide (a % 4 < b % 4)) ())[m]? = some 3) :=
  ⟨mod4_swo, natLT_swo,
   (stable_variants_stability Unit (fun a b _ => decide (a % 4 < b % 4))
       (fun a b _ => natLT a b) () [7, 3] [] mod4_swo natLT_swo).2.1
     0 1 7 3 (by omega) rfl rfl ⟨by decide, by decide⟩⟩

/-- C4: the comparator-driven variants called with an arbitrary predicate —
one that need not be a strict weak order: each call is a total function whose
value is computed by the instrumented model (termination), the result is a
permutation of the input (the sort reads and writes exactly the `len` given
elements), and the model performs at most `len * ⌈log₂ len⌉` comparisons. -/
theorem by_variants_terminate_within_nlogn (γ : Type)
    (ci : Int → Int → γ → Bool) (cu : Nat → Nat → γ → Bool) (ctx : γ)
    (li : List Int) (lu : List Nat) :
    ((mergeSortC (swoLE (make_compare_fn ci ctx)) li).1 =
        sort_stable_i32_by li ci ctx ∧
      (mergeSortC (swoLE (make_compare_fn ci ctx)) li).1 =
        sort_unstable_i32_by li ci ctx ∧
      (mergeSortC (swoLE (make_compare_fn cu ctx)) lu).1 =
        sort_stable_u64_by lu cu ctx ∧
      (mergeSortC (swoLE (make_compare_fn cu ctx)) lu).1 =
        sort_unstable_u64_by lu cu ctx) ∧
    ((sort_stable_i32_by li ci ctx).Perm li ∧
      (sort_unstable_i32_by li ci ctx).Perm li ∧
      (sort_stable_u64_by lu cu ctx).Perm lu ∧
      (sort_unstable_u64_by lu cu ctx).Perm lu) ∧
    ((mergeSortC (swoLE (make_compare_fn ci ctx)) li).2 ≤
        li.length * Nat.clog 2 li.length ∧
      (mergeSortC (swoLE (make_compare_fn cu ctx)) lu).2 ≤
        lu.length * Nat.clog 2 lu.length) :=
  ⟨⟨mergeSortC_fst _ li, mergeSortC_fst _ li,
    mergeSortC_fst _ lu, mergeSortC_fst _ lu⟩,
   ⟨std_stable_sort_perm _ li, std_sort_perm _ li,
    std_stable_sort_perm _ lu, std_sort_perm _ lu⟩,
   mergeSortC_count _ li, mergeSortC_count _ lu⟩

/-- C6: applying any of the eight entry points to an input that is already
sorted under the requested ordering leaves the buffer identical — sorting a
sorted sequence is the identity. -/
theorem sorting_sorted_input_is_identity (γ : Type)
    (ci : Int → Int → γ → Bool) (cu : Nat → Nat → γ → Bool) (ctx : γ)
    (li lj : List Int) (lu lv : List Nat)
    (hci : StrictWeakOrder (make_compare_fn ci ctx))
    (hcu : StrictWeakOrder (make_compare_fn cu ctx))
    (hsi : SortedAdj intLT li)
    (hsj : SortedAdj (make_compare_fn ci ctx) lj)
    (hsu : SortedAdj natLT lu)
    (hsv : SortedAdj (make_compare_fn cu ctx) lv) :
    sort_stable_i32 li = li ∧ sort_unstable_i32 li = li ∧
    sort_stable_i32_by lj ci ctx = lj ∧ sort_unstable_i32_by lj ci ctx = lj ∧
    sort_stable_u64 lu = lu ∧ sort_unstable_u64 lu = lu ∧
    sort_stable_u64_by lv cu ctx = lv ∧ sort_unstable_u64_by lv cu ctx = lv :=
  ⟨std_stable_sort_of_sortedAdj intLT_swo hsi,
   std_sort_of_sortedAdj intLT_swo hsi,
   std_stable_sort_of_sortedAdj hci hsj, std_sort_of_sortedAdj hci hsj,
   std_stable_sort_of_sortedAdj natLT_swo hsu,
   std_sort_of_sortedAdj natLT_swo hsu,
   std_stable_sort_of_sortedAdj hcu hsv, std_sort_of_sortedAdj hcu hsv⟩

/-- Witness for C6 at concrete sorted inputs. -/
theorem sorting_sorted_input_is_identity_witness :
    StrictWeakOrder (make_compare_fn (fun a b (_ : Unit) => intLT a b) ()) ∧
    StrictWeakOrder (make_compare_fn (fun a b (_ : Unit) => natLT a b) ()) ∧
    SortedAdj intLT [1, 2, 3] ∧
    SortedAdj (make_compare_fn (fun a b (_ : Unit) => intLT a b) ())
      [3, 3, 4] ∧
    SortedAdj natLT [0, 1, 5] ∧
    SortedAdj (make_compare_fn (fun a b (_ : Unit) => natLT a b) ()) [2, 2] ∧
    (sort_stable_i32 [1, 2, 3] = [1, 2, 3] ∧
     sort_unstable_i32 [1, 2, 3] = [1, 2, 3] ∧
     sort_stable_i32_by [3, 3, 4] (fun a b _ => intLT a b) () = [3, 3, 4] ∧
     sort_unstable_i32_by [3, 3, 4] (fun a b _ => intLT a b) () = [3, 3, 4] ∧
     sort_stable_u64 [0, 1, 5] = [0, 1, 5] ∧
     sort_unstable_u64 [0, 1, 5] = [0, 1, 5] ∧
     sort_stable_u64_by [2, 2] (fun a b _ => natLT a b) () = [2, 2] ∧
     sort_unstable_u64_by [2, 2] (fun a b _ => natLT a b) () = [2, 2]) :=
  ⟨intLT_swo, natLT_swo,
   sortedAdj_of_pairwise (by decide), sortedAdj_of_pairwise (by decide),
   sortedAdj_of_pairwise (by decide), sortedAdj_of_pairwise (by decide),
   sorting_sorted_input_is_identity Unit (fun a b _ => intLT a b)
     (fun a b _ => natLT a b) () [1, 2, 3] [3, 3, 4] [0, 1, 5] [2, 2]
     intLT_swo natLT_swo
     (sortedAdj_of_pairwise (by decide)) (sortedAdj_of_pairwise (by decide))
     (sortedAdj_of_pairwise (by decide)) (sortedAdj_of_pairwise (by decide))⟩

/-- C8: natural-order sorting of the 64-bit unsigned array
`[18446744073709551615, 0, 1]` (the first value is the maximum `u64`)
produces `[0, 1, 18446744073709551615]` through both the stable and the
unstable entry point: the comparison is full-width unsigned. -/
theorem u64_full_width_sort :
    sort_stable_u64 [18446744073709551615, 0, 1] =
      [0, 1, 18446744073709551615] ∧
    sort_unstable_u64 [18446744073709551615, 0, 1] =
      [0, 1, 18446744073709551615] :=
  ⟨List.eq_of_perm_of_sorted
      ((std_stable_sort_perm natLT _).trans (by decide))
      (mergeSort_nat_le_pairwise _) (by decide),
   List.eq_of_perm_of_sorted
      ((std_sort_perm natLT _).trans (by decide))
      (mergeSort_nat_le_pairwise _) (by decide)⟩
